import Mathlib

namespace ObjectFS

/-!
Verification development for the ObjectFS repository.

The repository ships one Python source file, `src/sdks/python/setup.py`,
a packaging descriptor, embedded below as pure functions over an abstract
filesystem. The specification additionally describes the filesystem core
(Metadata Index, Block Cache, Write-Back Journal, Invalidation Bus,
POSIX Operation Translator) whose implementation is not present in the
repository; those components are modelled from the specification text and
verified against it.
-/

/-! ## Embedding of `src/sdks/python/setup.py` -/

/-- Relative path of the README consulted by `read_long_description`. -/
def readmePath : String := "README.md"

/-- The fallback long description returned when no README exists; in the
source it is also the literal passed as `description=`. -/
def fallbackDescription : String :=
  "ObjectFS Python SDK - High-performance POSIX filesystem for object storage"

/-- Errors a file open can raise. -/
inductive SetupErr
  | fileNotFound
deriving DecidableEq

/-- Abstract filesystem state: maps a path to the content of the file
there, or `none` when no file exists at that path. -/
def FS : Type := String → Option String

/-- Embedding of `open(p).read()`: succeeds with the full content exactly
when the file exists, raises otherwise. -/
def openRead (fs : FS) (p : String) : Except SetupErr String :=
  match fs p with
  | some c => Except.ok c
  | none => Except.error SetupErr.fileNotFound

/-- Embedding of `read_long_description` from `setup.py`: if `README.md`
exists next to the script, open and return its content, else return the
fallback string. -/
def read_long_description (fs : FS) : Except SetupErr String :=
  if (fs readmePath).isSome then openRead fs readmePath
  else Except.ok fallbackDescription

/-- The arguments of the module-level `setup(...)` call that the claims
mention. -/
structure SetupArgs where
  pkgName : String
  version : String
  description : String
  longDescription : String
  pythonRequires : String
  consoleScripts : List String
  keywords : String
deriving DecidableEq

/-- Embedding of the module-level `setup(...)` call: evaluating the module
first computes `read_long_description()` and then passes the literal
arguments of the call. -/
def setupCall (fs : FS) : Except SetupErr SetupArgs :=
  match read_long_description fs with
  | Except.error e => Except.error e
  | Except.ok ld =>
      Except.ok
        ⟨"objectfs", "0.1.0",
         "ObjectFS Python SDK - High-performance POSIX filesystem for object storage",
         ld, ">=3.8", ["objectfs-python=objectfs.cli:main"],
         "filesystem, object-storage, s3, fuse, distributed, cache, performance"⟩

/-! ## Metadata Index

Modelled from the spec: the repository ships no implementation of the
Metadata Index; the definitions below follow §3 (inode records, directory
entries with tombstone flags, version tokens) and §4.1 (lookup / create /
remove / rename contract) of the specification. -/

/-- Inode kinds (§3). -/
inductive Kind
  | file
  | dir
  | symlink
deriving DecidableEq

/-- Directory entry: child name under a parent, child inode id, tombstone
flag for entries pending deletion propagation (§3). -/
structure DirEntry where
  parent : Nat
  name : String
  child : Nat
  tombstone : Bool
deriving DecidableEq

/-- Local structural errors of the Metadata Index (§7). -/
inductive MErr
  | NotFound
  | AlreadyExists
  | NotEmpty
deriving DecidableEq

/-- Modelled from the spec: Metadata Index state — directory entries plus
per-inode kind, size and version token, and the next fresh inode id. -/
structure MetaIndex where
  entries : List DirEntry
  kinds : Nat → Option Kind
  sizes : Nat → Nat
  versions : Nat → Nat
  nextId : Nat

/-- An entry is a live member of directory `p`. -/
def liveIn (p : Nat) (e : DirEntry) : Bool :=
  e.parent == p && !e.tombstone

/-- An entry is the live binding of name `n` in directory `p`. -/
def matchesName (p : Nat) (n : String) (e : DirEntry) : Bool :=
  e.parent == p && e.name == n && !e.tombstone

/-- Tombstone an entry. -/
def tombOf (e : DirEntry) : DirEntry :=
  ⟨e.parent, e.name, e.child, true⟩

/-- Names of the live entries of directory `p`. -/
def liveNames (m : MetaIndex) (p : Nat) : List String :=
  (m.entries.filter (liveIn p)).map (fun e => e.name)

/-- Contract `lookup(parent_id, name) -> inode_id | NotFound` (§4.1). -/
def mlookup (m : MetaIndex) (p : Nat) (n : String) : Option Nat :=
  (m.entries.find? (matchesName p n)).map (fun e => e.child)

/-- Contract `create(parent_id, name, kind) -> inode_id`, failing with
`AlreadyExists` when the name is occupied (§4.1); allocates a fresh inode
id, records the kind, and starts the version token at 1. -/
def mcreate (m : MetaIndex) (p : Nat) (n : String) (k : Kind) :
    Except MErr (MetaIndex × Nat) :=
  match mlookup m p n with
  | some _ => Except.error MErr.AlreadyExists
  | none =>
      Except.ok (⟨⟨p, n, m.nextId, false⟩ :: m.entries,
        fun j => if j = m.nextId then some k else m.kinds j,
        fun j => if j = m.nextId then 0 else m.sizes j,
        fun j => if j = m.nextId then 1 else m.versions j,
        m.nextId + 1⟩, m.nextId)

/-- Contract `remove(parent_id, name) -> ()`, failing with `NotFound` when no live
binding exists and `NotEmpty` for a non-empty directory (§4.1); the live
binding is tombstoned and the child's version token bumped. -/
def mremove (m : MetaIndex) (p : Nat) (n : String) : Except MErr MetaIndex :=
  match mlookup m p n with
  | none => Except.error MErr.NotFound
  | some c =>
      if m.kinds c = some Kind.dir ∧ m.entries.any (liveIn c) then
        Except.error MErr.NotEmpty
      else
        Except.ok ⟨m.entries.map (fun e => if matchesName p n e then tombOf e else e),
          m.kinds, m.sizes,
          fun j => if j = c then m.versions c + 1 else m.versions j,
          m.nextId⟩

/-- Contract `rename(src_parent, src_name, dst_parent, dst_name) -> ()` (§4.1),
one atomic transition: the source binding and any live destination binding
are tombstoned and the destination binding is installed in the same step. -/
def mrename (m : MetaIndex) (sp : Nat) (sn : String) (dp : Nat) (dn : String) :
    Except MErr MetaIndex :=
  match mlookup m sp sn with
  | none => Except.error MErr.NotFound
  | some c =>
      Except.ok ⟨⟨dp, dn, c, false⟩ ::
        m.entries.map (fun e =>
          if matchesName sp sn e || matchesName dp dn e then tombOf e else e),
        m.kinds, m.sizes,
        fun j => if j = c then m.versions c + 1 else m.versions j,
        m.nextId⟩

/-- Namespace operations whose sequences the invariant claims range over. -/
inductive NsOp
  | create (parent : Nat) (n : String) (k : Kind)
  | remove (parent : Nat) (n : String)
  | rename (srcParent : Nat) (srcName : String) (dstParent : Nat) (dstName : String)

/-- Run one namespace operation; a failing operation leaves the index
unchanged. -/
def runOp (m : MetaIndex) : NsOp → MetaIndex
  | NsOp.create p n k =>
      match mcreate m p n k with
      | Except.ok r => r.1
      | Except.error _ => m
  | NsOp.remove p n =>
      match mremove m p n with
      | Except.ok m' => m'
      | Except.error _ => m
  | NsOp.rename sp sn dp dn =>
      match mrename m sp sn dp dn with
      | Except.ok m' => m'
      | Except.error _ => m

/-- Run a sequence of namespace operations. -/
def runOps (m : MetaIndex) (ops : List NsOp) : MetaIndex :=
  ops.foldl runOp m

/-- The fresh Metadata Index: no entries, inode ids start after the root. -/
def emptyIndex : MetaIndex :=
  ⟨[], fun _ => none, fun _ => 0, fun _ => 0, 1⟩

/-- Invariant (§3): no two live entries of one directory share a name. -/
def DirNodup (m : MetaIndex) : Prop :=
  ∀ p : Nat, (liveNames m p).Nodup

/-- A concrete Metadata Index used to instantiate the rename theorem: one
live entry "a" in directory 0 naming inode 5. -/
def sampleIndex : MetaIndex :=
  ⟨[⟨0, "a", 5, false⟩], fun _ => none, fun _ => 0, fun _ => 0, 6⟩

/-- The index obtained from `sampleIndex` by renaming (0, "a") to (1, "b"). -/
def sampleRenamed : MetaIndex :=
  ⟨[⟨1, "b", 5, false⟩, ⟨0, "a", 5, true⟩], fun _ => none, fun _ => 0,
   fun j => if j = 5 then 1 else 0, 6⟩

/-! ## Write-Back Journal

Modelled from the spec: the repository ships no implementation of the
Write-Back Journal; the definitions below follow §3 (journal records with
pre/post version tokens) and §4.3 (replay re-applies a record only when
its post-version token is strictly newer than the current inode version). -/

/-- One journalled mutation (§3): a write range, a metadata (size) change,
or a delete. -/
inductive JOp
  | writeRange (off : Nat) (len : Nat)
  | setSize (n : Nat)
  | deleteInode
deriving DecidableEq

/-- Journal record: inode id, pre/post version tokens, one mutation (§3). -/
structure JRecord where
  ino : Nat
  preV : Nat
  postV : Nat
  op : JOp
deriving DecidableEq

/-- Metadata effect of one journalled mutation on the index. -/
def applyJOp (m : MetaIndex) (ino : Nat) : JOp → MetaIndex
  | JOp.writeRange off len =>
      ⟨m.entries, m.kinds,
       fun j => if j = ino then max (m.sizes ino) (off + len) else m.sizes j,
       m.versions, m.nextId⟩
  | JOp.setSize n =>
      ⟨m.entries, m.kinds, fun j => if j = ino then n else m.sizes j,
       m.versions, m.nextId⟩
  | JOp.deleteInode =>
      ⟨m.entries.map (fun e => if e.child == ino then tombOf e else e),
       fun j => if j = ino then none else m.kinds j,
       fun j => if j = ino then 0 else m.sizes j,
       m.versions, m.nextId⟩

/-- Replay one record (§4.3): re-applied only when its post-version token
is strictly newer than the current inode version, then the version token
is advanced to the record's post-version; otherwise a no-op. -/
def applyRecord (m : MetaIndex) (r : JRecord) : MetaIndex :=
  if m.versions r.ino < r.postV then
    let m' := applyJOp m r.ino r.op
    ⟨m'.entries, m'.kinds, m'.sizes,
     fun j => if j = r.ino then r.postV else m'.versions j, m'.nextId⟩
  else m

/-- Replay a journal segment in the order written. -/
def replaySegment (m : MetaIndex) (seg : List JRecord) : MetaIndex :=
  seg.foldl applyRecord m

/-! ## Block Cache

Modelled from the spec: the repository ships no implementation of the
Block Cache; the definitions below follow §3 (cache blocks keyed by
(inode id, block index) with state clean/dirty/flushing and a last-access
timestamp) and §4.2 (read / write / flush contract and the eviction
policy). -/

/-- Fixed block size (§3): file data is cached in chunks of this size. -/
def blockSize : Nat := 4096

/-- Cache block states (§3). -/
inductive BState
  | clean
  | dirty
  | flushing
deriving DecidableEq

/-- One cached block: raw data (byte at an offset within the block), its
state, and a last-access timestamp for eviction scoring (§3). -/
structure CBlock where
  data : Nat → Nat
  bstate : BState
  lastAccess : Nat

/-- Block Cache state: cached blocks keyed by (inode id, block index),
the backend object-store content (inode id → absolute offset → byte), a
logical clock stamping accesses, and the capacity in blocks. -/
structure CacheState where
  blocks : List ((Nat × Nat) × CBlock)
  backend : Nat → Nat → Nat
  clock : Nat
  capacity : Nat

/-- Look a block up in the cache. -/
def findBlock (s : CacheState) (k : Nat × Nat) : Option CBlock :=
  (s.blocks.find? (fun q => q.1 == k)).map (fun q => q.2)

/-- Insert or replace the block stored under key `k`, advancing the
clock. -/
def upsertBlock (s : CacheState) (k : Nat × Nat) (b : CBlock) : CacheState :=
  ⟨(k, b) :: s.blocks.filter (fun q => q.1 != k), s.backend, s.clock + 1,
   s.capacity⟩

/-- The byte visible at absolute offset `off` of inode `ino`: the cached
block's content when the covering block is cached, the backend content
otherwise. -/
def view (s : CacheState) (ino off : Nat) : Nat :=
  match findBlock s (ino, off / blockSize) with
  | some b => b.data (off % blockSize)
  | none => s.backend ino off

/-- Content of the block `(ino, idx)`: the cached content, or the backend
slice when the block is not cached (read-modify-write source). -/
def blockOr (s : CacheState) (ino idx : Nat) : Nat → Nat :=
  match findBlock s (ino, idx) with
  | some b => b.data
  | none => fun o => s.backend ino (idx * blockSize + o)

/-- The block produced by writing byte `b` at absolute offset `off`: the
covering block's content (cache or backend) overlaid at the byte's
in-block offset, marked dirty. -/
def writtenBlock (s : CacheState) (ino off b : Nat) : CBlock :=
  ⟨fun o => if o = off % blockSize then b else blockOr s ino (off / blockSize) o,
   BState.dirty, s.clock⟩

/-- Write one byte: the covering block is loaded (cache or backend),
overlaid at the byte's offset, and stored back marked dirty. -/
def writeByte (s : CacheState) (ino off b : Nat) : CacheState :=
  upsertBlock s (ino, off / blockSize) (writtenBlock s ino off b)

/-- Contract `write(inode_id, offset, bytes)` (§4.2): applied byte by byte in
program order, always satisfied locally, marking affected blocks dirty. -/
def bwrite : CacheState → Nat → Nat → List Nat → CacheState
  | s, _, _, [] => s
  | s, ino, off, b :: rest => bwrite (writeByte s ino off b) ino (off + 1) rest

/-- Successful `flush(inode_id)` (§4.2): every dirty block of the inode is
pushed to the backend and transitions clean; clean blocks and other inodes
are untouched. -/
def flushOk (s : CacheState) (ino : Nat) : CacheState :=
  ⟨s.blocks.map (fun q =>
      if q.1.1 == ino && q.2.bstate == BState.dirty then
        (q.1, ⟨q.2.data, BState.clean, q.2.lastAccess⟩) else q),
   fun i o =>
      match findBlock s (i, o / blockSize) with
      | some b =>
          if i = ino ∧ b.bstate = BState.dirty then b.data (o % blockSize)
          else s.backend i o
      | none => s.backend i o,
   s.clock, s.capacity⟩

/-- Evict the entire cache: every cached block is dropped; the backend is
untouched. -/
def evictAll (s : CacheState) : CacheState :=
  ⟨[], s.backend, s.clock, s.capacity⟩

/-- Populate the cache with block `(ino, idx)` from the backend when it is
missing (read miss fill). -/
def fillBlock (s : CacheState) (ino idx : Nat) : CacheState :=
  match findBlock s (ino, idx) with
  | some _ => s
  | none =>
      upsertBlock s (ino, idx)
        ⟨fun o => s.backend ino (idx * blockSize + o), BState.clean, s.clock⟩

/-- Indices of the blocks covering `[off, off + len)`. -/
def blockSpan (off len : Nat) : List Nat :=
  if len = 0 then []
  else List.range' (off / blockSize)
    ((off + len - 1) / blockSize + 1 - off / blockSize)

/-- Contract `read(inode_id, offset, length)` (§4.2): fills every covering block
from the backend on miss, then returns the visible bytes. -/
def bread (s : CacheState) (ino off len : Nat) : List Nat × CacheState :=
  let s' := (blockSpan off len).foldl (fun t idx => fillBlock t ino idx) s
  ((List.range len).map (fun i => view s' ino (off + i)), s')

/-- The block covering offset `off` of inode `ino` is cached dirty. -/
def dirtyAt (s : CacheState) (ino off : Nat) : Prop :=
  ∃ blk, findBlock s (ino, off / blockSize) = some blk ∧
    blk.bstate = BState.dirty

/-- Strict eviction preference (§4.2): `a` is evicted before `b` when it
was accessed less recently, with ties broken by lower inode id, then lower
block index. -/
def betterVictim (a b : (Nat × Nat) × CBlock) : Bool :=
  decide (a.2.lastAccess < b.2.lastAccess) ||
    (decide (a.2.lastAccess = b.2.lastAccess) &&
      (decide (a.1.1 < b.1.1) ||
        (decide (a.1.1 = b.1.1) && decide (a.1.2 < b.1.2))))

/-- The lexicographic (last access, inode id, block index) order the
eviction tie-break induces. -/
def victimLE (a b : (Nat × Nat) × CBlock) : Prop :=
  a.2.lastAccess < b.2.lastAccess ∨
    (a.2.lastAccess = b.2.lastAccess ∧
      (a.1.1 < b.1.1 ∨ (a.1.1 = b.1.1 ∧ a.1.2 ≤ b.1.2)))

/-- Keep the better of the victim found so far and the next block. -/
def pickVictim (acc : Option ((Nat × Nat) × CBlock))
    (q : (Nat × Nat) × CBlock) : Option ((Nat × Nat) × CBlock) :=
  match acc with
  | none => some q
  | some p => if betterVictim q p then some q else some p

/-- Eviction victim selection (§4.2): the minimum of the clean blocks in
the (last access, inode id, block index) order; dirty and flushing blocks
are never candidates. -/
def evictCandidate (s : CacheState) : Option ((Nat × Nat) × CBlock) :=
  (s.blocks.filter (fun q => q.2.bstate == BState.clean)).foldl pickVictim none

/-- Evict one block: drop the selected victim's key from the cache; when
no clean block exists nothing is evicted. -/
def evictOne (s : CacheState) : CacheState :=
  match evictCandidate s with
  | some v => ⟨s.blocks.filter (fun q => q.1 != v.1), s.backend, s.clock,
      s.capacity⟩
  | none => s

/-- Backend/flush errors (§7). -/
inductive CErr
  | BackendUnavailable
deriving DecidableEq

/-- One flush attempt against a backend that is up or down: on failure the
cache state is preserved unchanged. -/
def flushAttempt (avail : Bool) (s : CacheState) (ino : Nat) :
    Option CErr × CacheState :=
  if avail then (none, flushOk s ino) else (some CErr.BackendUnavailable, s)

/-- Bounded retry inside the flush path (§7): up to `tries` attempts,
consulting per-attempt backend availability; repeated failure keeps the
state (hence all dirty blocks and their buffered content) unchanged and
reports `BackendUnavailable`. -/
def flushRetry : (Nat → Bool) → Nat → CacheState → Nat → Option CErr × CacheState
  | _, 0, s, _ => (some CErr.BackendUnavailable, s)
  | availAt, t + 1, s, ino =>
      if availAt 0 then (none, flushOk s ino)
      else flushRetry (fun n => availAt (n + 1)) t s ino

/-- An `fsync` awaits the flush and surfaces its deferred error (§4.5, §7). -/
def fsyncOp (availAt : Nat → Bool) (tries : Nat) (s : CacheState) (ino : Nat) :
    Option CErr × CacheState :=
  flushRetry availAt tries s ino

/-- A buffered `write` is always satisfied locally (§4.2): it never
surfaces a backend error. -/
def writeOp (s : CacheState) (ino off : Nat) (data : List Nat) :
    Option CErr × CacheState :=
  (none, bwrite s ino off data)

/-- A concrete cache used to instantiate the eviction theorem: two clean
blocks of different recency and one dirty block. -/
def sampleCache : CacheState :=
  ⟨[((1, 5), ⟨fun _ => 0, BState.clean, 2⟩),
    ((2, 1), ⟨fun _ => 0, BState.clean, 1⟩),
    ((2, 3), ⟨fun _ => 0, BState.dirty, 0⟩)], fun _ _ => 0, 3, 2⟩

/-- The least-recently-used clean block of `sampleCache`. -/
def sampleVictim : (Nat × Nat) × CBlock :=
  ((2, 1), ⟨fun _ => 0, BState.clean, 1⟩)

/-! ## Invalidation Bus

Modelled from the spec: the repository ships no implementation of the
Invalidation Bus; the definitions below follow §3 (invalidation events)
and §4.4 (local reaction: version-token comparison, staleness marking,
cache eviction, duplicate dropping). -/

/-- Invalidation event kinds (§3). -/
inductive EvKind
  | metadataChanged
  | dataChanged
  | deleted
deriving DecidableEq

/-- Invalidation event (§3): inode id, kind, version token, originating
mount identity. -/
structure InvEvent where
  ino : Nat
  kind : EvKind
  version : Nat
  origin : Nat
deriving DecidableEq

/-- Local state of one mount: its Metadata Index, its Block Cache, and a
per-inode staleness mark. -/
structure MountState where
  meta : MetaIndex
  cache : CacheState
  stale : Nat → Bool

/-- React to one received invalidation event (§4.4): an event whose
version token is not strictly newer than the local one is dropped; a newer
metadata-changed/data-changed event marks the local entry stale and evicts
the inode's cache blocks (no eager re-fetch); a newer deleted event
removes the local directory entries naming the inode and evicts its
blocks. -/
def handleEvent (st : MountState) (e : InvEvent) : MountState :=
  if st.meta.versions e.ino < e.version then
    match e.kind with
    | EvKind.deleted =>
        ⟨⟨st.meta.entries.map (fun en => if en.child == e.ino then tombOf en else en),
          st.meta.kinds, st.meta.sizes, st.meta.versions, st.meta.nextId⟩,
         ⟨st.cache.blocks.filter (fun q => q.1.1 != e.ino), st.cache.backend,
          st.cache.clock, st.cache.capacity⟩,
         st.stale⟩
    | _ =>
        ⟨st.meta,
         ⟨st.cache.blocks.filter (fun q => q.1.1 != e.ino), st.cache.backend,
          st.cache.clock, st.cache.capacity⟩,
         fun i => if i = e.ino then true else st.stale i⟩
  else st

/-- A concrete mount state instantiating the invalidation theorem: local
version token 5 for every inode, one cached block of inode 3. -/
def sampleMount : MountState :=
  ⟨⟨[], fun _ => none, fun _ => 0, fun _ => 5, 1⟩,
   ⟨[((3, 0), ⟨fun _ => 0, BState.clean, 0⟩)], fun _ _ => 0, 1, 8⟩,
   fun _ => false⟩

/-- A duplicate/out-of-order event: version token not newer than local. -/
def sampleOldEvent : InvEvent := ⟨3, EvKind.dataChanged, 5, 2⟩

/-- A strictly newer data-changed event for inode 3. -/
def sampleNewEvent : InvEvent := ⟨3, EvKind.dataChanged, 6, 2⟩

/-! ## Theorems -/

/-- C1: the packaging descriptor declares ObjectFS with exactly the keyword
list `filesystem, object-storage, s3, fuse, distributed, cache, performance`,
the package name `objectfs`, and the high-performance POSIX filesystem
description string. -/
theorem setup_declares_objectfs_keywords (fs : FS) (a : SetupArgs)
    (h : setupCall fs = Except.ok a) :
    a.keywords = String.intercalate ", "
      ["filesystem", "object-storage", "s3", "fuse", "distributed", "cache", "performance"] ∧
    a.pkgName = "objectfs" ∧
    a.description =
      "ObjectFS Python SDK - High-performance POSIX filesystem for object storage" := by
  unfold setupCall at h
  cases hld : read_long_description fs with
  | error e => rw [hld] at h; exact absurd h (by simp)
  | ok ld =>
      rw [hld] at h
      cases h
      refine ⟨?_, rfl, rfl⟩
      rfl

/-- Witness for C1 at the empty filesystem. -/
theorem setup_declares_objectfs_keywords_w :
    (setupCall (fun _ => none) = Except.ok
      ⟨"objectfs", "0.1.0",
       "ObjectFS Python SDK - High-performance POSIX filesystem for object storage",
       "ObjectFS Python SDK - High-performance POSIX filesystem for object storage",
       ">=3.8", ["objectfs-python=objectfs.cli:main"],
       "filesystem, object-storage, s3, fuse, distributed, cache, performance"⟩) ∧
    ("filesystem, object-storage, s3, fuse, distributed, cache, performance" =
      String.intercalate ", "
        ["filesystem", "object-storage", "s3", "fuse", "distributed", "cache", "performance"]) :=
  ⟨rfl, (setup_declares_objectfs_keywords (fun _ => none) _ rfl).1⟩

/-- Characterization of `read_long_description`: it always succeeds, with
the README content when present and the fallback string otherwise. -/
theorem read_long_description_spec (fs : FS) :
    read_long_description fs =
      Except.ok (match fs readmePath with
        | some c => c
        | none => fallbackDescription) := by
  unfold read_long_description openRead
  cases h : fs readmePath with
  | some c => simp [h]
  | none => simp [h]

/-- C9: `read_long_description` is total at its public interface: for every
filesystem state it returns a string and never raises — the content of
`README.md` when that file exists, the fallback string otherwise; the
existence guard makes the unguarded-open error branch unreachable. -/
theorem read_long_description_total (fs : FS) :
    read_long_description fs =
      Except.ok (match fs readmePath with
        | some c => c
        | none => fallbackDescription) :=
  read_long_description_spec fs

/-- C10: when `README.md` is absent the `long_description` passed to
`setup` equals the `description` — both the identical fallback string —
and the other arguments are fixed constants independent of the
environment. -/
theorem setup_args_fixed_when_no_readme (fs : FS) (h : fs readmePath = none) :
    ∃ a : SetupArgs, setupCall fs = Except.ok a ∧
      a.longDescription = a.description ∧
      a.description =
        "ObjectFS Python SDK - High-performance POSIX filesystem for object storage" ∧
      a.pkgName = "objectfs" ∧
      a.version = "0.1.0" ∧
      a.pythonRequires = ">=3.8" ∧
      a.consoleScripts = ["objectfs-python=objectfs.cli:main"] ∧
      ∀ fs' : FS, ∃ a' : SetupArgs, setupCall fs' = Except.ok a' ∧
        a'.pkgName = a.pkgName ∧ a'.version = a.version ∧
        a'.description = a.description ∧ a'.pythonRequires = a.pythonRequires ∧
        a'.consoleScripts = a.consoleScripts ∧ a'.keywords = a.keywords := by
  have hld : read_long_description fs = Except.ok fallbackDescription := by
    unfold read_long_description
    simp [h]
  refine ⟨⟨"objectfs", "0.1.0",
      "ObjectFS Python SDK - High-performance POSIX filesystem for object storage",
      fallbackDescription, ">=3.8", ["objectfs-python=objectfs.cli:main"],
      "filesystem, object-storage, s3, fuse, distributed, cache, performance"⟩,
    ?_, rfl, rfl, rfl, rfl, rfl, rfl, ?_⟩
  · unfold setupCall
    rw [hld]
  · intro fs'
    rcases hx : read_long_description fs' with e | ld
    · exact absurd hx (by rw [read_long_description_spec fs']; simp)
    · refine ⟨⟨"objectfs", "0.1.0",
          "ObjectFS Python SDK - High-performance POSIX filesystem for object storage",
          ld, ">=3.8", ["objectfs-python=objectfs.cli:main"],
          "filesystem, object-storage, s3, fuse, distributed, cache, performance"⟩,
        ?_, rfl, rfl, rfl, rfl, rfl, rfl⟩
      unfold setupCall
      rw [hx]

/-- Witness for C10 at the empty filesystem. -/
theorem setup_args_fixed_when_no_readme_w :
    ∃ a : SetupArgs, setupCall (fun _ => none) = Except.ok a ∧
      a.longDescription = a.description ∧
      a.description =
        "ObjectFS Python SDK - High-performance POSIX filesystem for object storage" ∧
      a.pkgName = "objectfs" ∧
      a.version = "0.1.0" ∧
      a.pythonRequires = ">=3.8" ∧
      a.consoleScripts = ["objectfs-python=objectfs.cli:main"] ∧
      ∀ fs' : FS, ∃ a' : SetupArgs, setupCall fs' = Except.ok a' ∧
        a'.pkgName = a.pkgName ∧ a'.version = a.version ∧
        a'.description = a.description ∧ a'.pythonRequires = a.pythonRequires ∧
        a'.consoleScripts = a.consoleScripts ∧ a'.keywords = a.keywords :=
  setup_args_fixed_when_no_readme (fun _ => none) rfl

theorem mem_liveNames {m : MetaIndex} {p : Nat} {x : String} :
    x ∈ liveNames m p ↔ ∃ e ∈ m.entries, liveIn p e = true ∧ e.name = x := by
  unfold liveNames
  simp only [List.mem_map, List.mem_filter]
  constructor
  · rintro ⟨e, ⟨he, hl⟩, hx⟩
    exact ⟨e, he, hl, hx⟩
  · rintro ⟨e, he, hl, hx⟩
    exact ⟨e, ⟨he, hl⟩, hx⟩

theorem mlookup_none_not_mem {m : MetaIndex} {p : Nat} {n : String}
    (h : mlookup m p n = none) : n ∉ liveNames m p := by
  intro hmem
  rcases mem_liveNames.1 hmem with ⟨e, he, hl, hx⟩
  have hfind : ∀ e ∈ m.entries, ¬ (matchesName p n e = true) := by
    have : m.entries.find? (matchesName p n) = none := by
      unfold mlookup at h
      cases hf : m.entries.find? (matchesName p n) with
      | none => rfl
      | some v => rw [hf] at h; simp at h
    exact List.find?_eq_none.1 this
  apply hfind e he
  unfold matchesName
  unfold liveIn at hl
  simp only [Bool.and_eq_true, beq_iff_eq] at hl ⊢
  exact ⟨⟨hl.1, hx⟩, hl.2⟩

theorem liveNames_map_tomb_sublist (l : List DirEntry) (f : DirEntry → DirEntry)
    (hf : ∀ e, f e = e ∨ (f e).tombstone = true) (p : Nat) :
    List.Sublist (((l.map f).filter (liveIn p)).map (fun e => e.name))
      ((l.filter (liveIn p)).map (fun e => e.name)) := by
  induction l with
  | nil => simp
  | cons e t ih =>
      simp only [List.map_cons, List.filter_cons]
      rcases hf e with h | h
      · rw [h]
        cases hb : liveIn p e
        · simpa [hb] using ih
        · simpa [hb] using ih.cons₂ e.name
      · have hfe : liveIn p (f e) = false := by
          unfold liveIn
          simp [h]
        rw [hfe]
        cases hb : liveIn p e
        · simpa [hb] using ih
        · simp only [hb, cond_true, List.map_cons]
          exact ih.trans (List.sublist_cons_self _ _)

theorem nodup_of_map_tomb {m : MetaIndex} (hm : DirNodup m)
    (f : DirEntry → DirEntry) (hf : ∀ e, f e = e ∨ (f e).tombstone = true)
    (kinds : Nat → Option Kind) (sizes : Nat → Nat)
    (versions : Nat → Nat) (nid : Nat) :
    DirNodup ⟨m.entries.map f, kinds, sizes, versions, nid⟩ := by
  intro p
  exact (hm p).sublist (liveNames_map_tomb_sublist m.entries f hf p)

theorem dirNodup_cons_create {m : MetaIndex} {p : Nat} {n : String}
    (hm : DirNodup m) (hn : mlookup m p n = none)
    (kinds : Nat → Option Kind) (sizes : Nat → Nat)
    (versions : Nat → Nat) (nid : Nat) (c : Nat) :
    DirNodup ⟨⟨p, n, c, false⟩ :: m.entries, kinds, sizes, versions, nid⟩ := by
  intro q
  show ((List.filter (liveIn q) (⟨p, n, c, false⟩ :: m.entries)).map
    (fun e => e.name)).Nodup
  by_cases hpq : p = q
  · subst hpq
    have hlive : liveIn p (⟨p, n, c, false⟩ : DirEntry) = true := by
      simp [liveIn]
    simp only [List.filter_cons, hlive, if_true, List.map_cons]
    exact List.nodup_cons.2 ⟨mlookup_none_not_mem hn, hm p⟩
  · have hlive : liveIn q (⟨p, n, c, false⟩ : DirEntry) = false := by
      simp [liveIn, hpq]
    simp only [List.filter_cons, hlive, Bool.false_eq_true, if_false]
    exact hm q

theorem dirNodup_rename {m : MetaIndex} (hm : DirNodup m)
    (sp dp : Nat) (sn dn : String) (c : Nat)
    (kinds : Nat → Option Kind) (sizes : Nat → Nat)
    (versions : Nat → Nat) (nid : Nat) :
    DirNodup ⟨⟨dp, dn, c, false⟩ ::
      m.entries.map (fun e =>
        if matchesName sp sn e || matchesName dp dn e then tombOf e else e),
      kinds, sizes, versions, nid⟩ := by
  intro q
  have hf : ∀ e : DirEntry,
      (if matchesName sp sn e || matchesName dp dn e then tombOf e else e) = e ∨
      (if matchesName sp sn e || matchesName dp dn e then tombOf e else e).tombstone
        = true := by
    intro e
    by_cases h : (matchesName sp sn e || matchesName dp dn e) = true
    · right; simp [h, tombOf]
    · left; simp [h]
  have hsub := liveNames_map_tomb_sublist m.entries _ hf q
  show ((List.filter (liveIn q) (⟨dp, dn, c, false⟩ :: m.entries.map
    (fun e => if matchesName sp sn e || matchesName dp dn e then tombOf e else e))).map
    (fun e => e.name)).Nodup
  by_cases hq : dp = q
  · subst hq
    have hlive : liveIn dp (⟨dp, dn, c, false⟩ : DirEntry) = true := by
      simp [liveIn]
    simp only [List.filter_cons, hlive, if_true, List.map_cons]
    refine List.nodup_cons.2 ⟨?_, (hm dp).sublist hsub⟩
    intro hmem
    rcases List.mem_map.1 hmem with ⟨e', he', hname⟩
    rcases List.mem_filter.1 he' with ⟨he'mem, he'live⟩
    rcases List.mem_map.1 he'mem with ⟨e, hemem, hfe⟩
    by_cases hmatch : (matchesName sp sn e || matchesName dp dn e) = true
    · have he't : e' = tombOf e := by rw [← hfe]; simp [hmatch]
      rw [he't] at he'live
      simp [liveIn, tombOf] at he'live
    · have he'e : e' = e := by rw [← hfe]; simp [hmatch]
      subst he'e
      have hdm : matchesName dp dn e' = true := by
        unfold matchesName
        unfold liveIn at he'live
        simp only [Bool.and_eq_true, beq_iff_eq] at he'live ⊢
        exact ⟨⟨he'live.1, hname⟩, he'live.2⟩
      simp [hdm] at hmatch
  · have hlive : liveIn q (⟨dp, dn, c, false⟩ : DirEntry) = false := by
      simp [liveIn, hq]
    simp only [List.filter_cons, hlive, Bool.false_eq_true, if_false]
    exact (hm q).sublist hsub

theorem nodup_runOp {m : MetaIndex} (hm : DirNodup m) (o : NsOp) :
    DirNodup (runOp m o) := by
  cases o with
  | create p n k =>
      simp only [runOp]
      cases hc : mcreate m p n k with
      | error e => exact hm
      | ok r =>
          unfold mcreate at hc
          cases hl : mlookup m p n with
          | some c => rw [hl] at hc; exact absurd hc (by simp)
          | none =>
              rw [hl] at hc
              injection hc with h
              subst h
              exact dirNodup_cons_create hm hl _ _ _ _ _
  | remove p n =>
      simp only [runOp]
      cases hc : mremove m p n with
      | error e => exact hm
      | ok m' =>
          unfold mremove at hc
          cases hl : mlookup m p n with
          | none => rw [hl] at hc; exact absurd hc (by simp)
          | some c =>
              rw [hl] at hc
              dsimp only at hc
              by_cases hne : m.kinds c = some Kind.dir ∧ m.entries.any (liveIn c)
              · rw [if_pos hne] at hc; exact absurd hc (by simp)
              · rw [if_neg hne] at hc
                injection hc with h
                subst h
                exact nodup_of_map_tomb hm _
                  (fun e => by
                    by_cases he : matchesName p n e = true
                    · right; simp [he, tombOf]
                    · left; simp [he]) _ _ _ _
  | rename sp sn dp dn =>
      simp only [runOp]
      cases hc : mrename m sp sn dp dn with
      | error e => exact hm
      | ok m' =>
          unfold mrename at hc
          cases hl : mlookup m sp sn with
          | none => rw [hl] at hc; exact absurd hc (by simp)
          | some c =>
              rw [hl] at hc
              injection hc with h
              subst h
              exact dirNodup_rename hm sp dp sn dn c _ _ _ _

theorem dirNodup_runOps (ops : List NsOp) :
    ∀ m : MetaIndex, DirNodup m → DirNodup (runOps m ops) := by
  induction ops with
  | nil => intro m hm; exact hm
  | cons o t ih => intro m hm; exact ih _ (nodup_runOp hm o)

theorem dirNodup_empty : DirNodup emptyIndex := by
  intro p
  simp [liveNames, emptyIndex]

/-- C2: directory-name uniqueness — for every sequence of Metadata Index
create/remove (and rename) operations starting from the fresh index, no
two live entries of one directory share a name, and `create` fails with
`AlreadyExists` whenever the name is already occupied. -/
theorem metaIndex_live_name_uniqueness (ops : List NsOp) (p : Nat) :
    (liveNames (runOps emptyIndex ops) p).Nodup ∧
    ∀ (m : MetaIndex) (parent : Nat) (n : String) (k : Kind),
      (mlookup m parent n).isSome = true →
      mcreate m parent n k = Except.error MErr.AlreadyExists := by
  constructor
  · exact dirNodup_runOps ops emptyIndex dirNodup_empty p
  · intro m parent n k h
    unfold mcreate
    cases hl : mlookup m parent n with
    | none => rw [hl] at h; exact absurd h (by simp)
    | some c => rfl

/-- Witness for C2: a create/create/remove sequence under parent 0, and a
create on the occupied name "a" failing with AlreadyExists. -/
theorem metaIndex_live_name_uniqueness_w :
    (liveNames (runOps emptyIndex
      [NsOp.create 0 "a" Kind.file, NsOp.create 0 "b" Kind.file,
       NsOp.remove 0 "b"]) 0).Nodup ∧
    mcreate (runOps emptyIndex
      [NsOp.create 0 "a" Kind.file, NsOp.create 0 "b" Kind.file,
       NsOp.remove 0 "b"]) 0 "a" Kind.file = Except.error MErr.AlreadyExists :=
  ⟨(metaIndex_live_name_uniqueness
      [NsOp.create 0 "a" Kind.file, NsOp.create 0 "b" Kind.file,
       NsOp.remove 0 "b"] 0).1,
   (metaIndex_live_name_uniqueness
      [NsOp.create 0 "a" Kind.file, NsOp.create 0 "b" Kind.file,
       NsOp.remove 0 "b"] 0).2 _ 0 "a" Kind.file (by decide)⟩

/-- C8: rename is one atomic Metadata Index transition (§4.1), so a
concurrent lookup observes either the pre-state or the post-state and no
intermediate one; in the pre-state the renamed inode resolves under the
old name and not the new, and in the post-state under the new name and not
the old — never under neither and never under both. -/
theorem rename_atomic_wrt_lookup (m : MetaIndex) (sp dp : Nat) (sn dn : String)
    (i : Nat) (m' : MetaIndex)
    (hsrc : mlookup m sp sn = some i)
    (hne : (sp, sn) ≠ (dp, dn))
    (hdst : mlookup m dp dn ≠ some i)
    (hren : mrename m sp sn dp dn = Except.ok m') :
    (mlookup m sp sn = some i ∧ mlookup m dp dn ≠ some i) ∧
    (mlookup m' dp dn = some i ∧ mlookup m' sp sn ≠ some i) := by
  refine ⟨⟨hsrc, hdst⟩, ?_⟩
  unfold mrename at hren
  rw [hsrc] at hren
  dsimp only at hren
  injection hren with h
  subst h
  constructor
  · have hhead : matchesName dp dn (⟨dp, dn, i, false⟩ : DirEntry) = true := by
      simp [matchesName]
    unfold mlookup
    dsimp only
    rw [List.find?_cons_of_pos _ hhead]
    rfl
  · have hhead : ¬ matchesName sp sn (⟨dp, dn, i, false⟩ : DirEntry) = true := by
      intro hcon
      unfold matchesName at hcon
      simp only [Bool.and_eq_true, beq_iff_eq] at hcon
      exact hne (by simp [hcon.1.1, hcon.1.2])
    have hrest : (m.entries.map (fun e =>
        if matchesName sp sn e || matchesName dp dn e then tombOf e else e)).find?
        (matchesName sp sn) = none := by
      apply List.find?_eq_none.2
      intro x hx
      rcases List.mem_map.1 hx with ⟨e, he, hfe⟩
      by_cases hme : (matchesName sp sn e || matchesName dp dn e) = true
      · rw [← hfe]
        simp only [hme, if_true]
        unfold matchesName tombOf
        simp
      · simp only [Bool.or_eq_true, not_or] at hme
        rw [← hfe]
        simp only [Bool.or_eq_true, hme.1, hme.2, or_self, if_false]
        intro hcon
        exact hme.1 hcon
    unfold mlookup
    dsimp only
    rw [List.find?_cons_of_neg _ hhead, hrest]
    simp

/-- Witness for C8: renaming (0, "a") to (1, "b") in `sampleIndex`. -/
theorem rename_atomic_wrt_lookup_w :
    (mlookup sampleIndex 0 "a" = some 5 ∧ mlookup sampleIndex 1 "b" ≠ some 5) ∧
    (mlookup sampleRenamed 1 "b" = some 5 ∧ mlookup sampleRenamed 0 "a" ≠ some 5) :=
  rename_atomic_wrt_lookup sampleIndex 0 1 "a" "b" 5 sampleRenamed rfl
    (by decide) (by decide) rfl

theorem versions_applyJOp (m : MetaIndex) (ino : Nat) (op : JOp) :
    (applyJOp m ino op).versions = m.versions := by
  cases op <;> rfl

theorem applyRecord_versions (m : MetaIndex) (r : JRecord) (j : Nat) :
    (applyRecord m r).versions j =
      if m.versions r.ino < r.postV ∧ j = r.ino then r.postV
      else m.versions j := by
  unfold applyRecord
  by_cases h : m.versions r.ino < r.postV
  · rw [if_pos h]
    by_cases hj : j = r.ino
    · simp [hj, h, versions_applyJOp]
    · simp [hj, h, versions_applyJOp]
  · rw [if_neg h]
    simp [h]

theorem versions_mono_applyRecord (m : MetaIndex) (r : JRecord) (j : Nat) :
    m.versions j ≤ (applyRecord m r).versions j := by
  rw [applyRecord_versions]
  by_cases h : m.versions r.ino < r.postV ∧ j = r.ino
  · rw [if_pos h]
    rcases h with ⟨h1, rfl⟩
    exact Nat.le_of_lt h1
  · rw [if_neg h]

theorem versions_mono_replay (seg : List JRecord) :
    ∀ (m : MetaIndex) (j : Nat),
      m.versions j ≤ (replaySegment m seg).versions j := by
  induction seg with
  | nil => intro m j; exact Nat.le_refl _
  | cons r t ih =>
      intro m j
      exact Nat.le_trans (versions_mono_applyRecord m r j) (ih (applyRecord m r) j)

theorem replay_reaches_postV (seg : List JRecord) :
    ∀ m : MetaIndex, ∀ r ∈ seg, r.postV ≤ (replaySegment m seg).versions r.ino := by
  induction seg with
  | nil => intro m r hr; cases hr
  | cons a t ih =>
      intro m r hr
      rcases List.mem_cons.1 hr with rfl | hr'
      · have h1 : r.postV ≤ (applyRecord m r).versions r.ino := by
          rw [applyRecord_versions]
          by_cases h : m.versions r.ino < r.postV
          · simp [h]
          · simp [h]
            exact Nat.le_of_not_lt h
        exact Nat.le_trans h1 (versions_mono_replay t (applyRecord m r) r.ino)
      · exact ih (applyRecord m a) r hr'

theorem applyRecord_of_le (m : MetaIndex) (r : JRecord)
    (h : r.postV ≤ m.versions r.ino) : applyRecord m r = m := by
  unfold applyRecord
  rw [if_neg (Nat.not_lt.2 h)]

theorem replay_of_all_le (seg : List JRecord) :
    ∀ m : MetaIndex, (∀ r ∈ seg, r.postV ≤ m.versions r.ino) →
      replaySegment m seg = m := by
  induction seg with
  | nil => intro m _; rfl
  | cons a t ih =>
      intro m h
      have ha : applyRecord m a = m := applyRecord_of_le m a (h a (List.mem_cons_self a t))
      show replaySegment (applyRecord m a) t = m
      rw [ha]
      exact ih m (fun r hr => h r (List.mem_cons_of_mem a hr))

/-- C4: idempotent journal replay — replaying a journal segment twice
against a fresh Metadata Index yields a final state identical to replaying
it once, because a record whose post-version token is not newer than the
current inode version is re-applied as a no-op. -/
theorem journal_replay_idempotent (seg : List JRecord) :
    replaySegment (replaySegment emptyIndex seg) seg =
      replaySegment emptyIndex seg :=
  replay_of_all_le seg (replaySegment emptyIndex seg)
    (fun r hr => replay_reaches_postV seg emptyIndex r hr)

theorem find?_filter_keyne (l : List ((Nat × Nat) × CBlock)) (k k' : Nat × Nat)
    (hne : k' ≠ k) :
    (l.filter (fun q => q.1 != k)).find? (fun q => q.1 == k') =
      l.find? (fun q => q.1 == k') := by
  induction l with
  | nil => rfl
  | cons a t ih =>
      rw [List.filter_cons]
      by_cases ha : a.1 = k
      · have h1 : (a.1 != k) = false := by simp [ha]
        rw [h1]
        simp only [Bool.false_eq_true, if_false]
        have h2 : ¬ (a.1 == k') = true := by
          simp only [beq_iff_eq, ha]
          exact fun hcon => hne hcon.symm
        rw [ih, List.find?_cons_of_neg]
        exact h2
      · have h1 : (a.1 != k) = true := by simp [ha]
        simp only [h1, if_true]
        by_cases hak : a.1 = k'
        · have h2 : (a.1 == k') = true := by simp [hak]
          rw [List.find?_cons_of_pos, List.find?_cons_of_pos]
          · exact h2
          · exact h2
        · have h2 : ¬ (a.1 == k') = true := by simp [hak]
          rw [List.find?_cons_of_neg, List.find?_cons_of_neg, ih]
          · exact h2
          · exact h2

theorem findBlock_upsert (s : CacheState) (k k' : Nat × Nat) (b : CBlock) :
    findBlock (upsertBlock s k b) k' =
      if k' = k then some b else findBlock s k' := by
  unfold findBlock upsertBlock
  dsimp only
  by_cases hk : k' = k
  · subst hk
    rw [List.find?_cons_of_pos]
    · simp
    · simp
  · rw [List.find?_cons_of_neg, find?_filter_keyne _ _ _ hk, if_neg hk]
    simp only [beq_iff_eq]
    exact fun h => hk h.symm

theorem findBlock_writeByte (s : CacheState) (ino off b : Nat) (k : Nat × Nat) :
    findBlock (writeByte s ino off b) k =
      if k = (ino, off / blockSize) then some (writtenBlock s ino off b)
      else findBlock s k := by
  unfold writeByte
  rw [findBlock_upsert]

theorem div_mul_add_mod_self (a : Nat) :
    a / blockSize * blockSize + a % blockSize = a := by
  simp only [blockSize]
  omega

theorem eq_of_div_mod_eq {a b : Nat}
    (hdiv : a / blockSize = b / blockSize)
    (hmod : a % blockSize = b % blockSize) : a = b := by
  simp only [blockSize] at hdiv hmod
  omega

theorem view_writeByte (s : CacheState) (ino off b ino' off' : Nat) :
    view (writeByte s ino off b) ino' off' =
      if ino' = ino ∧ off' = off then b else view s ino' off' := by
  unfold view
  rw [findBlock_writeByte]
  by_cases hk : ((ino', off' / blockSize) : Nat × Nat) = (ino, off / blockSize)
  · rw [if_pos hk]
    have hino : ino' = ino := congrArg Prod.fst hk
    have hdiv : off' / blockSize = off / blockSize := congrArg Prod.snd hk
    dsimp only [writtenBlock]
    by_cases hoff : off' = off
    · rw [if_pos (show off' % blockSize = off % blockSize from by rw [hoff]),
        if_pos (show ino' = ino ∧ off' = off from ⟨hino, hoff⟩)]
    · have hmodne : off' % blockSize ≠ off % blockSize := by
        intro hm
        exact hoff (eq_of_div_mod_eq hdiv hm)
      rw [if_neg hmodne,
        if_neg (show ¬(ino' = ino ∧ off' = off) from fun hc => hoff hc.2)]
      unfold blockOr
      rw [← hino, ← hdiv]
      cases hf : findBlock s (ino', off' / blockSize) with
      | some blk => rfl
      | none =>
          dsimp only
          rw [div_mul_add_mod_self]
  · rw [if_neg hk,
      if_neg (show ¬(ino' = ino ∧ off' = off) from
        fun hc => hk (by rw [hc.1, hc.2]))]
    rfl

theorem view_fillBlock (s : CacheState) (ino idx ino' off' : Nat) :
    view (fillBlock s ino idx) ino' off' = view s ino' off' := by
  unfold fillBlock
  cases hf : findBlock s (ino, idx) with
  | some b => rfl
  | none =>
      dsimp only
      unfold view
      rw [findBlock_upsert]
      by_cases hk : ((ino', off' / blockSize) : Nat × Nat) = (ino, idx)
      · rw [if_pos hk]
        have hino : ino' = ino := congrArg Prod.fst hk
        have hdiv : off' / blockSize = idx := congrArg Prod.snd hk
        rw [← hino, ← hdiv] at hf
        rw [hf]
        dsimp only
        rw [← hino, ← hdiv, div_mul_add_mod_self]
      · rw [if_neg hk]
        rfl

theorem view_fills (idxs : List Nat) :
    ∀ (s : CacheState) (ino ino' off' : Nat),
      view (idxs.foldl (fun t idx => fillBlock t ino idx) s) ino' off' =
        view s ino' off' := by
  induction idxs with
  | nil => intro s ino ino' off'; rfl
  | cons a t ih =>
      intro s ino ino' off'
      rw [List.foldl_cons, ih, view_fillBlock]

theorem view_bwrite (data : List Nat) :
    ∀ (s : CacheState) (ino off ino' off' : Nat),
      view (bwrite s ino off data) ino' off' =
        if ino' = ino ∧ off ≤ off' ∧ off' < off + data.length then
          data.getD (off' - off) 0
        else view s ino' off' := by
  induction data with
  | nil =>
      intro s ino off ino' off'
      rw [if_neg ?hno]
      case hno =>
        rintro ⟨-, h2, h3⟩
        simp only [List.length_nil, Nat.add_zero] at h3
        omega
      rfl
  | cons b rest ih =>
      intro s ino off ino' off'
      show view (bwrite (writeByte s ino off b) ino (off + 1) rest) ino' off' = _
      rw [ih]
      by_cases h1 : ino' = ino ∧ off + 1 ≤ off' ∧ off' < off + 1 + rest.length
      · rw [if_pos h1,
          if_pos ⟨h1.1, by omega, by simp only [List.length_cons]; omega⟩]
        have hone : off' - off = (off' - (off + 1)) + 1 := by omega
        rw [hone]
        rfl
      · rw [if_neg h1, view_writeByte]
        by_cases h2 : ino' = ino ∧ off' = off
        · rw [if_pos h2,
            if_pos ⟨h2.1, by omega, by simp only [List.length_cons]; omega⟩]
          rw [h2.2]
          simp
        · rw [if_neg h2, if_neg ?hno2]
          case hno2 =>
            rintro ⟨ha, hb, hc⟩
            simp only [List.length_cons] at hc
            by_cases hoo : off' = off
            · exact h2 ⟨ha, hoo⟩
            · exact h1 ⟨ha, by omega, by omega⟩

theorem dirtyAt_writeByte_self (s : CacheState) (ino off b : Nat) :
    dirtyAt (writeByte s ino off b) ino off :=
  ⟨writtenBlock s ino off b, by rw [findBlock_writeByte, if_pos rfl], rfl⟩

theorem dirtyAt_writeByte_mono (s : CacheState) (ino off b ino' off' : Nat)
    (h : dirtyAt s ino' off') : dirtyAt (writeByte s ino off b) ino' off' := by
  by_cases hk : ((ino', off' / blockSize) : Nat × Nat) = (ino, off / blockSize)
  · exact ⟨writtenBlock s ino off b, by rw [findBlock_writeByte, if_pos hk], rfl⟩
  · rcases h with ⟨blk, hf, hd⟩
    exact ⟨blk, by rw [findBlock_writeByte, if_neg hk]; exact hf, hd⟩

theorem dirtyAt_bwrite_mono (data : List Nat) :
    ∀ (s : CacheState) (ino off ino' off' : Nat),
      dirtyAt s ino' off' → dirtyAt (bwrite s ino off data) ino' off' := by
  induction data with
  | nil => intro s _ _ _ _ h; exact h
  | cons b rest ih =>
      intro s ino off ino' off' h
      exact ih (writeByte s ino off b) ino (off + 1) ino' off'
        (dirtyAt_writeByte_mono s ino off b ino' off' h)

theorem dirtyAt_bwrite (data : List Nat) :
    ∀ (s : CacheState) (ino off i : Nat), i < data.length →
      dirtyAt (bwrite s ino off data) ino (off + i) := by
  induction data with
  | nil => intro s ino off i hi; exact absurd hi (by simp)
  | cons b rest ih =>
      intro s ino off i hi
      cases i with
      | zero =>
          have h0 := dirtyAt_writeByte_self s ino off b
          have hall := dirtyAt_bwrite_mono rest (writeByte s ino off b)
            ino (off + 1) ino off h0
          rw [Nat.add_zero]
          exact hall
      | succ j =>
          have hj : j < rest.length := by
            simp only [List.length_cons] at hi
            omega
          have hres := ih (writeByte s ino off b) ino (off + 1) j hj
          have harr : off + 1 + j = off + (j + 1) := by omega
          rw [harr] at hres
          exact hres

theorem backend_flushOk_of_dirty (s : CacheState) (ino off : Nat)
    (h : dirtyAt s ino off) :
    (flushOk s ino).backend ino off = view s ino off := by
  rcases h with ⟨blk, hf, hd⟩
  show (match findBlock s (ino, off / blockSize) with
    | some b =>
        if ino = ino ∧ b.bstate = BState.dirty then b.data (off % blockSize)
        else s.backend ino off
    | none => s.backend ino off) = view s ino off
  rw [hf]
  dsimp only
  rw [if_pos ⟨rfl, hd⟩]
  unfold view
  rw [hf]

theorem view_evictAll (s : CacheState) (ino off : Nat) :
    view (evictAll s) ino off = s.backend ino off := rfl

/-- C3: write/flush/read round-trip — writing `data` at `off`, flushing the
inode, evicting the entire cache, then reading `data.length` bytes at `off`
returns exactly `data`. -/
theorem write_flush_evict_read_roundtrip (s : CacheState) (ino off : Nat)
    (data : List Nat) :
    (bread (evictAll (flushOk (bwrite s ino off data) ino)) ino off
      data.length).1 = data := by
  apply List.ext_getElem
  · simp [bread]
  · intro i h1 h2
    show ((List.range data.length).map
      (fun i => view ((blockSpan off data.length).foldl
        (fun t idx => fillBlock t ino idx)
        (evictAll (flushOk (bwrite s ino off data) ino))) ino (off + i)))[i] =
      data[i]
    simp only [List.getElem_map, List.getElem_range]
    rw [view_fills]
    rw [view_evictAll]
    rw [backend_flushOk_of_dirty _ ino (off + i)
      (dirtyAt_bwrite data s ino off i h2)]
    rw [view_bwrite]
    rw [if_pos ⟨rfl, by omega, by omega⟩]
    have hsub : off + i - off = i := by omega
    rw [hsub]
    exact List.getD_eq_getElem data 0 h2

theorem victimLE_refl (a : (Nat × Nat) × CBlock) : victimLE a a := by
  unfold victimLE
  omega

theorem victimLE_trans {a b c : (Nat × Nat) × CBlock}
    (h1 : victimLE a b) (h2 : victimLE b c) : victimLE a c := by
  unfold victimLE at h1 h2 ⊢
  omega

theorem victimLE_of_better {a b : (Nat × Nat) × CBlock}
    (h : betterVictim a b = true) : victimLE a b := by
  unfold betterVictim at h
  simp only [Bool.or_eq_true, Bool.and_eq_true, decide_eq_true_eq] at h
  unfold victimLE
  omega

theorem victimLE_of_not_better {a b : (Nat × Nat) × CBlock}
    (h : betterVictim a b = false) : victimLE b a := by
  unfold betterVictim at h
  simp only [Bool.or_eq_false_iff, Bool.and_eq_false_iff,
    decide_eq_false_iff_not] at h
  unfold victimLE
  omega

theorem foldl_pickVictim_min (l : List ((Nat × Nat) × CBlock)) :
    ∀ (acc : Option ((Nat × Nat) × CBlock)) (r : (Nat × Nat) × CBlock),
      l.foldl pickVictim acc = some r →
        (acc = some r ∨ r ∈ l) ∧
        (∀ p, acc = some p → victimLE r p) ∧
        (∀ q ∈ l, victimLE r q) := by
  induction l with
  | nil =>
      intro acc r h
      have h' : acc = some r := h
      refine ⟨Or.inl h', ?_, by intro q hq; cases hq⟩
      intro p hp
      rw [hp] at h'
      injection h' with h''
      rw [h'']
      exact victimLE_refl r
  | cons a t ih =>
      intro acc r h
      rw [List.foldl_cons] at h
      rcases ih (pickVictim acc a) r h with ⟨hmem, hacc, hall⟩
      cases acc with
      | none =>
          have hpa : pickVictim none a = some a := rfl
          have hra : victimLE r a := hacc a hpa
          refine ⟨?_, ?_, ?_⟩
          · rcases hmem with hm | hm
            · rw [hpa] at hm
              injection hm with hm
              exact Or.inr (by rw [← hm]; exact List.mem_cons_self a t)
            · exact Or.inr (List.mem_cons_of_mem a hm)
          · intro p hp
            exact absurd hp (by simp)
          · intro q hq
            rcases List.mem_cons.1 hq with rfl | hq'
            · exact hra
            · exact hall q hq'
      | some p =>
          by_cases hb : betterVictim a p = true
          · have hpa : pickVictim (some p) a = some a := by
              show (if betterVictim a p = true then some a else some p) = some a
              rw [if_pos hb]
            have hra : victimLE r a := hacc a hpa
            have hrp : victimLE r p := victimLE_trans hra (victimLE_of_better hb)
            refine ⟨?_, ?_, ?_⟩
            · rcases hmem with hm | hm
              · rw [hpa] at hm
                injection hm with hm
                exact Or.inr (by rw [← hm]; exact List.mem_cons_self a t)
              · exact Or.inr (List.mem_cons_of_mem a hm)
            · intro p' hp'
              injection hp' with hp'
              rw [← hp']
              exact hrp
            · intro q hq
              rcases List.mem_cons.1 hq with rfl | hq'
              · exact hra
              · exact hall q hq'
          · have hbf : betterVictim a p = false := by
              cases hbb : betterVictim a p
              · rfl
              · exact absurd hbb hb
            have hpa : pickVictim (some p) a = some p := by
              show (if betterVictim a p = true then some a else some p) = some p
              rw [if_neg (by simp [hbf])]
            have hrp : victimLE r p := hacc p hpa
            have hra : victimLE r a :=
              victimLE_trans hrp (victimLE_of_not_better hbf)
            refine ⟨?_, ?_, ?_⟩
            · rcases hmem with hm | hm
              · rw [hpa] at hm
                injection hm with hm
                exact Or.inl (by rw [hm])
              · exact Or.inr (List.mem_cons_of_mem a hm)
            · intro p' hp'
              injection hp' with hp'
              rw [← hp']
              exact hrp
            · intro q hq
              rcases List.mem_cons.1 hq with rfl | hq'
              · exact hra
              · exact hall q hq'

/-- C5: eviction policy — a selected eviction victim is a cached clean
block that is least-recently-used among clean blocks, with ties broken by
lowest inode id then lowest block index; dirty blocks are never selected,
and when the victim is evicted every dirty block survives. -/
theorem blockCache_eviction_policy (s : CacheState)
    (v : (Nat × Nat) × CBlock)
    (hkeys : (s.blocks.map (fun q => q.1)).Nodup)
    (h : evictCandidate s = some v) :
    v ∈ s.blocks ∧ v.2.bstate = BState.clean ∧
    (∀ q ∈ s.blocks, q.2.bstate = BState.clean → victimLE v q) ∧
    (∀ q ∈ s.blocks, q.2.bstate = BState.dirty → q ∈ (evictOne s).blocks) := by
  have hcand := h
  unfold evictCandidate at h
  rcases foldl_pickVictim_min _ none v h with ⟨hmem, -, hall⟩
  have hvmem : v ∈ s.blocks.filter (fun q => q.2.bstate == BState.clean) := by
    rcases hmem with hm | hm
    · exact absurd hm (by simp)
    · exact hm
  have hv1 : v ∈ s.blocks := (List.mem_filter.1 hvmem).1
  have hv2 : v.2.bstate = BState.clean := by
    have := (List.mem_filter.1 hvmem).2
    simpa using this
  refine ⟨hv1, hv2, ?_, ?_⟩
  · intro q hq hqc
    exact hall q (List.mem_filter.2 ⟨hq, by simp [hqc]⟩)
  · intro q hq hqd
    unfold evictOne
    rw [hcand]
    apply List.mem_filter.2
    refine ⟨hq, ?_⟩
    have hqv : q ≠ v := by
      intro hqv
      rw [hqv, hv2] at hqd
      exact absurd hqd (by simp)
    have hkne : q.1 ≠ v.1 := by
      intro hkeq
      exact hqv (List.inj_on_of_nodup_map hkeys hq hv1 hkeq)
    simp [hkne]

/-- C6: flush-failure atomicity — whenever the retried flush fails, the
error is `BackendUnavailable`, the cache state (hence every dirty block's
state and buffered content) is preserved unchanged, and buffered writes
never surface a backend error; the deferred error is surfaced by `fsync`. -/
theorem flush_failure_preserves_dirty (availAt : Nat → Bool) (tries : Nat)
    (s : CacheState) (ino : Nat) (e : CErr)
    (h : (fsyncOp availAt tries s ino).1 = some e) :
    e = CErr.BackendUnavailable ∧
    (fsyncOp availAt tries s ino).2 = s ∧
    ∀ (t : CacheState) (i o : Nat) (d : List Nat),
      (writeOp t i o d).1 = none := by
  induction tries generalizing availAt with
  | zero => exact ⟨by cases e; rfl, rfl, fun _ _ _ _ => rfl⟩
  | succ t iht =>
      have hstep : fsyncOp availAt (t + 1) s ino =
          if availAt 0 then (none, flushOk s ino)
          else fsyncOp (fun n => availAt (n + 1)) t s ino := rfl
      by_cases ha : availAt 0
      · rw [hstep, if_pos ha] at h
        exact absurd h (by simp)
      · rw [hstep, if_neg ha] at h ⊢
        exact iht (fun n => availAt (n + 1)) h

/-- Witness for C6: a two-attempt flush against a backend that is down. -/
theorem flush_failure_preserves_dirty_w :
    CErr.BackendUnavailable = CErr.BackendUnavailable ∧
    (fsyncOp (fun _ => false) 2 sampleCache 7).2 = sampleCache ∧
    ∀ (t : CacheState) (i o : Nat) (d : List Nat),
      (writeOp t i o d).1 = none :=
  flush_failure_preserves_dirty (fun _ => false) 2 sampleCache 7
    CErr.BackendUnavailable rfl

/-- Witness for C5 at `sampleCache`: the selected victim is the
least-recently-used clean block (2, 1). -/
theorem blockCache_eviction_policy_w :
    sampleVictim ∈ sampleCache.blocks ∧
    sampleVictim.2.bstate = BState.clean ∧
    (∀ q ∈ sampleCache.blocks, q.2.bstate = BState.clean →
      victimLE sampleVictim q) ∧
    (∀ q ∈ sampleCache.blocks, q.2.bstate = BState.dirty →
      q ∈ (evictOne sampleCache).blocks) :=
  blockCache_eviction_policy sampleCache sampleVictim (by decide) rfl

/-- C7: invalidation deduplication — an event whose version token is not
strictly newer than the local one is dropped without mutating local state;
a strictly newer metadata-changed/data-changed event marks the local entry
stale and evicts every cache block of that inode. -/
theorem invalidation_dedup (st : MountState) (e : InvEvent) :
    (e.version ≤ st.meta.versions e.ino → handleEvent st e = st) ∧
    (st.meta.versions e.ino < e.version →
      (e.kind = EvKind.metadataChanged ∨ e.kind = EvKind.dataChanged) →
      (handleEvent st e).stale e.ino = true ∧
      ∀ q ∈ (handleEvent st e).cache.blocks, q.1.1 ≠ e.ino) := by
  constructor
  · intro h
    unfold handleEvent
    rw [if_neg (Nat.not_lt.2 h)]
  · intro h hk
    unfold handleEvent
    rw [if_pos h]
    have hblocks : ∀ q ∈ st.cache.blocks.filter (fun q => q.1.1 != e.ino),
        q.1.1 ≠ e.ino := by
      intro q hq
      have := (List.mem_filter.1 hq).2
      simpa using this
    rcases hk with hk | hk <;> rw [hk] <;>
      exact ⟨by simp, fun q hq => hblocks q hq⟩

/-- Witness for C7: `sampleOldEvent` is dropped by `sampleMount`;
`sampleNewEvent` marks inode 3 stale and evicts its blocks. -/
theorem invalidation_dedup_w :
    handleEvent sampleMount sampleOldEvent = sampleMount ∧
    ((handleEvent sampleMount sampleNewEvent).stale 3 = true ∧
      ∀ q ∈ (handleEvent sampleMount sampleNewEvent).cache.blocks,
        q.1.1 ≠ 3) :=
  ⟨(invalidation_dedup sampleMount sampleOldEvent).1 (by decide),
   (invalidation_dedup sampleMount sampleNewEvent).2 (by decide) (Or.inr rfl)⟩

end ObjectFS
